import Mathlib

/-!
Verification of the fastlin classification core against its specification.

The development shallowly embeds the three core components of the program:

* `Barcodes.fromLines` — database construction (`src/barcodes.rs`,
  `Barcodes::from_string`);
* `processBuffer` / `scanReads` — the streaming k-mer scanner
  (`src/analyse_sample.rs`, `Analysis::process_buffer` and `scan_reads`);
* `mergeBarcodes` / `filterLineages` / `nonInclusive` / `processBarcodes` —
  the lineage resolver (`src/analyse_sample.rs`).

Modelling conventions:

* Rust `u64`/`u32`/`usize` values are modelled as `Nat`; the program's
  counters only ever increase by bounded per-record amounts and no claim
  depends on wrap-around, so arithmetic is kept on `Nat`.
* Rust `HashMap`s are modelled as association lists.  `HashMap::insert`
  replaces the value of an existing key in place (and appends new keys), and
  `get` finds the unique entry; the list order stands in for the map's
  (unspecified) iteration order, which is why theorems about code that
  iterates a map quantify over all entry lists.
* The barcode index `HashMap<Seq<Dna>, String>` stores the id string
  `format!("{}__{}", lineage, counter)`; `analyse_sample.rs` reads this id
  back as a `(lineage, barcode_id)` pair (`barcode_id.0` is the lineage).
  The id is therefore modelled as the pair `(String × Nat)` itself.  The
  index is kept in insertion order with a last-insert-wins lookup, which is
  exactly `HashMap` insert/get semantics.
* Rust byte-slicing of line fields is modelled on the character list of the
  Lean string; the two coincide on ASCII data, and the nucleotide-alphabet
  check restricts all data that matters to ASCII.
* Rust panics (out-of-bounds indexing, arithmetic underflow on `usize`) are
  modelled as the distinguished error `BErr.panicked`.
* File discovery, gzip decompression and FASTQ record decoding are external
  collaborators (spec §1): a decoded stream is a `List (Except String
  (List Dna))`, each item either a record's sequence or a decoder error
  message.
-/

namespace Fastlin

/-- The four-letter nucleotide alphabet (`bio_seq::Dna`). -/
inductive Dna : Type
  | A | C | G | T
  deriving DecidableEq, Repr

/-- Watson–Crick complement of a single base. -/
def Dna.comp : Dna → Dna
  | .A => .T
  | .C => .G
  | .G => .C
  | .T => .A

/-- `Seq::revcomp` of `bio_seq`: reverse the sequence and complement each
base. -/
def revcomp (s : List Dna) : List Dna :=
  (s.reverse).map Dna.comp

/-- `Dna::try_from` on one character: the uppercase nucleotide letters are
accepted, everything else is rejected. -/
def parseDnaChar : Char → Option Dna
  | 'A' => some .A
  | 'C' => some .C
  | 'G' => some .G
  | 'T' => some .T
  | _ => none

/-- `str::parse::<u64>`: an optional leading `+`, then a non-empty run of
ASCII digits whose value fits in 64 bits. -/
def parseU64 (s : String) : Option Nat :=
  let t := match s.data with
    | '+' :: rest => rest
    | l => l
  if t = [] then none
  else if t.all Char.isDigit then
    let v := t.foldl (fun a c => a * 10 + (c.toNat - 48)) 0
    if v < 2 ^ 64 then some v else none
  else none

/-- A barcode index value: the lineage name together with the zero-based
barcode counter (rendered by the program as `lineage__counter`). -/
abbrev BcId := String × Nat

/-- One entry of the barcode index: a k-mer key and its id value. -/
abbrev BcEntry := List Dna × BcId

/-- The barcode database (`Barcodes` of `src/barcodes.rs`): the index in
insertion order, the genome size and the k-mer length. -/
structure Barcodes : Type where
  barcodes : List BcEntry
  genome_size : Nat
  k : Nat
  deriving DecidableEq, Repr

/-- `HashMap::get` on the index: the value of the last insertion with the
given key, if any. -/
def lookupBc (l : List BcEntry) (w : List Dna) : Option BcId :=
  (l.reverse.find? (fun e => decide (e.1 = w))).map (·.2)

/-- Errors of `Barcodes::from_string`.  `genomeParse` and `genomeMissing`
are the two genome-size `ConfigError`s; `alphabet` is the barcode-window
error propagated from `Seq::try_from`; `panicked` models a Rust panic
(field indexing or slicing out of bounds). -/
inductive BErr : Type
  | genomeParse | genomeMissing | alphabet | panicked
  deriving DecidableEq, Repr

/-- Is a tab-split line the genome-size control line
(`collection[0] == "genome_size" || collection[0] == "#genome_size"`)? -/
def isControl (c : List String) : Bool :=
  c.headD "" = "genome_size" || c.headD "" = "#genome_size"

/-- `&s[a..b]` on an ASCII string: `none` models the Rust panic when the
range is out of bounds. -/
def sliceStr (s : String) (a b : Nat) : Option (List Char) :=
  if a ≤ b ∧ b ≤ s.data.length then some ((s.data.drop a).take (b - a)) else none

/-- The k-window of one barcode line: concatenate fields 1–3 and slice
`[50 - half_k .. 50 - half_k + k]`, where `half_k = (k-1)/2`.  `none`
models the panics: fewer than four fields, `k = 0` (underflow computing
`k - 1`), `half_k > 50` (underflow computing `50 - half_k`), or the slice
falling outside the concatenation. -/
def lineWindowChars (k : Nat) (c : List String) : Option (List Char) :=
  if c.length < 4 then none
  else if k = 0 then none
  else if 50 < (k - 1) / 2 then none
  else
    sliceStr (c.getD 1 "" ++ c.getD 2 "" ++ c.getD 3 "")
      (50 - (k - 1) / 2) (50 - (k - 1) / 2 + k)

/-- The two index insertions of one barcode line: the forward window and its
reverse complement, both with the same id value. -/
def entryPair (w : List Dna) (lin : String) (i : Nat) : List BcEntry :=
  [(w, (lin, i)), (revcomp w, (lin, i))]

/-- The loop of `Barcodes::from_string`, carrying the accumulated index (in
insertion order), the current genome size (0 = not seen yet) and the
barcode counter. -/
def fromGo (k : Nat) : List (List String) → List BcEntry → Nat → Nat → Except BErr Barcodes
  | [], acc, g, _cnt =>
      if g = 0 then .error .genomeMissing else .ok ⟨acc, g, k⟩
  | c :: rest, acc, g, cnt =>
      if isControl c then
        if c.length < 2 then .error .panicked
        else
          match parseU64 (c.getD 1 "") with
          | none => .error .genomeParse
          | some v => fromGo k rest acc v cnt
      else
        match lineWindowChars k c with
        | none => .error .panicked
        | some chars =>
            match chars.mapM parseDnaChar with
            | none => .error .alphabet
            | some w =>
                fromGo k rest (acc ++ entryPair w (c.headD "") cnt) g (cnt + 1)

/-- `Barcodes::from_string`, with the reference text already split into
tab-separated lines (the splitting itself is `str::lines`/`str::split`). -/
def fromLines (lines : List (List String)) (k : Nat) : Except BErr Barcodes :=
  fromGo k lines [] 0 0

/-! ## The sequence scanner (`src/analyse_sample.rs`) -/

/-- `slice::windows(k)`: every contiguous slice of width `k`, in order.
Empty when `k` exceeds the length.  (`windows(0)` panics in Rust and is
unreachable here: the program enforces `11 ≤ k`.) -/
def windows (k : Nat) : List Dna → List (List Dna)
  | [] => []
  | a :: rest =>
      if k = 0 then []
      else if (a :: rest).length < k then []
      else (a :: rest).take k :: windows k rest

/-- The per-sample barcode counts (`HashMap<(String, u32), u32>`),
modelled as an association list with unique keys. -/
abbrev Counts := List (BcId × Nat)

/-- `HashMap::get` on the counts. -/
def getCount (c : Counts) (id : BcId) : Option Nat :=
  (c.find? (fun e => decide (e.1 = id))).map (·.2)

/-- `HashMap::insert` on the counts: replace the value of an existing key
in place, append a new key. -/
def setCount : Counts → BcId → Nat → Counts
  | [], id, n => [(id, n)]
  | e :: rest, id, n => if e.1 = id then (id, n) :: rest else e :: setCount rest id n

/-- One decoded record: either a sequence or the decoder's error message
(the record-decoding collaborator is external, spec §1/§6). -/
abbrev Rec := Except String (List Dna)

/-- The inner loop of `Analysis::process_buffer` for one record: look every
width-`k` window up in the index and bump the count of each hit. -/
def processRecord (db : Barcodes) (c : Counts) (seq : List Dna) : Counts :=
  (windows db.k seq).foldl
    (fun c w =>
      match lookupBc db.barcodes w with
      | some id =>
          match getCount c id with
          | some n => setCount c id (n + 1)
          | none => setCount c id 1
      | none => c)
    c

/-- `Analysis::process_buffer`: stream the records of one file, skipping
records shorter than `k`, adding `length - k` to the file's k-mer counter
after each processed record, and returning early once the counter exceeds
the configured limit.  A decoder error aborts with
`format!("Error in file: {}", err)`. -/
def processBuffer (db : Barcodes) (lim : Option Nat) :
    Counts → Nat → List Rec → Except String (Counts × Nat)
  | c, kc, [] => .ok (c, kc)
  | _c, _kc, .error e :: _ => .error ("Error in file: " ++ e)
  | c, kc, .ok seq :: rs =>
      if seq.length < db.k then processBuffer db lim c kc rs
      else
        match lim with
        | some m =>
            if m < kc + (seq.length - db.k) then
              .ok (processRecord db c seq, kc + (seq.length - db.k))
            else processBuffer db lim (processRecord db c seq) (kc + (seq.length - db.k)) rs
        | none => processBuffer db lim (processRecord db c seq) (kc + (seq.length - db.k)) rs

/-- `scan_reads`: process the sample's files in order, threading the counts
through and summing the per-file k-mer counters; each call to
`process_buffer` starts its k-mer counter at 0.  (The filename sort that
precedes this loop permutes `PathBuf`s and is outside the embedded core.) -/
def scanReads (db : Barcodes) (lim : Option Nat) :
    List (List Rec) → Counts → Nat → Except String (Counts × Nat)
  | [], c, t => .ok (c, t)
  | f :: fs, c, t =>
      match processBuffer db lim c 0 f with
      | .error e => .error e
      | .ok (c', n) => scanReads db lim fs c' (t + n)

/-- Reference streaming loop with the coverage-cap logic removed: every
record of the stream is processed. -/
def processAll (db : Barcodes) : Counts → Nat → List Rec → Except String (Counts × Nat)
  | c, kc, [] => .ok (c, kc)
  | _c, _kc, .error e :: _ => .error ("Error in file: " ++ e)
  | c, kc, .ok seq :: rs =>
      if seq.length < db.k then processAll db c kc rs
      else processAll db (processRecord db c seq) (kc + (seq.length - db.k)) rs

/-! ## The lineage resolver (`src/analyse_sample.rs`) -/

/-- Append `n` to lineage `lin`'s evidence list, creating the lineage on
first sight (the `match merged_lineages.get(lineage)` block of
`merge_barcodes`). -/
def addTo : List (String × List Nat) → String → Nat → List (String × List Nat)
  | [], lin, n => [(lin, [n])]
  | e :: rest, lin, n =>
      if e.1 = lin then (e.1, e.2 ++ [n]) :: rest else e :: addTo rest lin n

/-- `Analysis::merge_barcodes`: keep the counts that reach `min_occurences`
and group them by the lineage component of the barcode id, in iteration
order of the counts map. -/
def mergeBarcodes (counts : Counts) (minOcc : Nat) : List (String × List Nat) :=
  counts.foldl (fun acc e => if minOcc ≤ e.2 then addTo acc e.1.1 e.2 else acc) []

/-- Insert into a sorted list in front of the first element not below `a`. -/
def insertSorted (le : α → α → Bool) (a : α) : List α → List α
  | [] => [a]
  | b :: rest => if le a b then a :: b :: rest else b :: insertSorted le a rest

/-- A stable ascending sort (`slice::sort` up to the order of equal
elements; all sort results below project equal elements to equal values,
so any correct sort is extensionally the same). -/
def sortBy (le : α → α → Bool) (l : List α) : List α :=
  l.foldr (insertSorted le) []

/-- Lexicographic comparison of character lists by code point, the order
`Ord` gives Rust strings. -/
def charListLe : List Char → List Char → Bool
  | [], _ => true
  | _ :: _, [] => false
  | a :: as, b :: bs =>
      if a.toNat < b.toNat then true
      else if b.toNat < a.toNat then false
      else charListLe as bs

/-- Rust's `String` ordering. -/
def strLe (a b : String) : Bool := charListLe a.data b.data

/-- `median` of `analyse_sample.rs`: sort ascending, then average the two
central elements (even length) or take the central element (odd length). -/
def median (values : List Nat) : Nat :=
  let s := sortBy (fun a b => a ≤ b) values
  if s.length % 2 = 0 then (s.getD (s.length / 2 - 1) 0 + s.getD (s.length / 2) 0) / 2
  else s.getD (s.length / 2) 0

/-- `Lineages::filter`: keep the lineages with at least `min_barcodes`
qualifying barcodes and replace each evidence list by its median. -/
def filterLineages (merged : List (String × List Nat)) (minBarcodes : Nat) :
    List (String × Nat) :=
  (merged.filter (fun e => minBarcodes ≤ e.2.length)).map (fun e => (e.1, median e.2))

/-- The removal test of `Lineages::non_inclusive`:
`key.starts_with(lin) && lin != key` for some key of the filtered map,
i.e. `lin` is a strict prefix of another filtered name. -/
def strictlyBelow (lin : String) (keys : List String) : Bool :=
  keys.any (fun key => lin.data.isPrefixOf key.data && lin ≠ key)

/-- `Lineages::non_inclusive` without its inner `filter` call: keep the
entries whose name is not a strict prefix of any filtered name. -/
def nonInclusive (filtered : List (String × Nat)) : List (String × Nat) :=
  filtered.filter (fun e => !strictlyBelow e.1 (filtered.map (·.1)))

/-- `format!("{} ({})", name, value)` for one surviving lineage. -/
def renderPair (e : String × Nat) : String :=
  e.1 ++ " (" ++ toString e.2 ++ ")"

/-- The final lineage call string: the surviving entries rendered in order
and joined by `", "`. -/
def callString (survivors : List (String × Nat)) : String :=
  String.intercalate ", " (survivors.map renderPair)

/-- `Lineages::format_data`: the pre-filter evidence log, keys sorted
lexicographically, each with its counts in accumulation order. -/
def formatData (merged : List (String × List Nat)) : String :=
  let keys := sortBy strLe (merged.map (·.1))
  String.intercalate ", "
    (keys.map (fun key =>
      let values := ((merged.find? (fun e => decide (e.1 = key))).map (·.2)).getD []
      key ++ " (" ++ String.intercalate ", " (values.map toString) ++ ")"))

/-- `Analysis::process_barcodes`: merge, render the log, filter and reduce,
then produce the call string and the mixture flag. -/
def processBarcodes (counts : Counts) (minCount : Nat) (minBarcodes : Nat) :
    String × Bool × String :=
  let merged := mergeBarcodes counts minCount
  let logB := formatData merged
  let survivors := nonInclusive (filterLineages merged minBarcodes)
  (callString survivors, decide (1 < survivors.length), logB)

/-! ## The per-sample driver (`src/main.rs`) -/

/-- The sample classification of `get_data_type`. -/
inductive InputType : Type
  | Assembly | Single | Paired
  deriving DecidableEq, Repr

/-- The scan parameters chosen per sample in `main` (lines 148–151):
assemblies run with no k-mer budget and `min_count = 1`; read samples use
the configured budget and `min_count`. -/
def chooseParams (t : InputType) (cap : Option Nat) (minCount : Nat) : Option Nat × Nat :=
  match t with
  | .Assembly => (none, 1)
  | .Single => (cap, minCount)
  | .Paired => (cap, minCount)

/-- One sample as `main` sees it: name, classification and decoded file
streams. -/
structure SampleIn : Type where
  name : String
  dtype : InputType
  files : List (List Rec)
  deriving Repr

/-- `InputType`'s `Display` implementation. -/
def typeName : InputType → String
  | .Assembly => "assembly"
  | .Single => "single"
  | .Paired => "paired"

/-- The coverage column: `round(kmers / genome_size)`, the `f64`
round-half-away-from-zero rendered exactly on naturals. -/
def kCoverage (kmers genome : Nat) : Nat :=
  (2 * kmers + genome) / (2 * genome)

/-- The body of `main`'s per-sample loop: on a successful scan, the written
report row (trailing tab = empty `log_errors` column); on a scan error,
`main` executes `Err(_e) => {}` and writes nothing, so the result is
`none`. -/
def runSample (db : Barcodes) (cap : Option Nat) (minCount : Nat) (minBarcodes : Nat)
    (s : SampleIn) : Option String :=
  let p := chooseParams s.dtype cap minCount
  match scanReads db p.1 s.files [] 0 with
  | .error _ => none
  | .ok (counts, kc) =>
      let r := processBarcodes counts p.2 minBarcodes
      some (s.name ++ "\t" ++ typeName s.dtype ++ "\t" ++ toString (kCoverage kc db.genome_size)
        ++ "\t" ++ (if r.2.1 then "yes" else "no") ++ "\t" ++ r.1 ++ "\t" ++ r.2.2 ++ "\t")

/-- The report rows produced by `main`'s sample loop: samples whose scan
fails contribute no row. -/
def runBatch (db : Barcodes) (cap : Option Nat) (minCount : Nat) (minBarcodes : Nat)
    (samples : List SampleIn) : List String :=
  samples.filterMap (runSample db cap minCount minBarcodes)

/-! ## Shared infrastructure for the theorems -/

instance {ε α : Type} [DecidableEq ε] [DecidableEq α] : DecidableEq (Except ε α) := fun x y =>
  match x, y with
  | .ok a, .ok b =>
      if h : a = b then .isTrue (by rw [h]) else .isFalse (fun he => h (by injection he))
  | .error a, .error b =>
      if h : a = b then .isTrue (by rw [h]) else .isFalse (fun he => h (by injection he))
  | .ok _, .error _ => .isFalse (fun he => by injection he)
  | .error _, .ok _ => .isFalse (fun he => by injection he)

/-- A two-line reference text: the genome-size control line and one barcode
line `L` whose flanks are 50 `A`s and 50 `G`s around a `C`. -/
def L0 : List (List String) :=
  [["genome_size", "100"],
   ["L", String.mk (List.replicate 50 'A'), "C", String.mk (List.replicate 50 'G')]]

/-- The `k = 11` window of `L0`'s barcode line. -/
def w0 : List Dna := [.A, .A, .A, .A, .A, .C, .G, .G, .G, .G, .G]

/-- The database built from `L0` at `k = 11`. -/
def db0 : Barcodes := ⟨[(w0, ("L", 0)), (revcomp w0, ("L", 0))], 100, 11⟩

/-- A concrete read: `w0` followed by one extra base, so it has two
windows at `k = 11` and a per-record k-mer increment of 1. -/
def r1 : List Dna := w0 ++ [.A]

/-- The genome-size bookkeeping of `from_string` in isolation: fold the
control lines over the running genome size (initially 0), each parsed value
overwriting the previous one; `none` records a parse failure. -/
def genomeResult (g : Nat) : List (List String) → Option Nat
  | [] => some g
  | c :: rest =>
      if isControl c then
        match parseU64 (c.getD 1 "") with
        | none => none
        | some v => genomeResult v rest
      else genomeResult g rest

/-- A line that cannot abort construction for a reason other than the
genome size: a control line with its value field present, or a barcode line
whose window slice is in range and alphabet-valid. -/
def goodLine (k : Nat) (c : List String) : Bool :=
  if isControl c then decide (2 ≤ c.length)
  else
    match lineWindowChars k c with
    | none => false
    | some chars => (chars.mapM parseDnaChar).isSome

/-- A `(lineage, count)` item of the merged evidence map. -/
def memEntry (m : List (String × List Nat)) (lin : String) (n : Nat) : Prop :=
  ∃ ns, (lin, ns) ∈ m ∧ n ∈ ns

/-- The final call string as the claim describes it: the surviving lineages
sorted lexicographically by name, rendered and joined by `", "`. -/
def sortedCallString (filtered : List (String × Nat)) : String :=
  callString (sortBy (fun a b => strLe a.1 b.1) (nonInclusive filtered))

/-- The parsed window and lineage name of one barcode line. -/
def lineData (k : Nat) (c : List String) : Option (List Dna × String) :=
  (lineWindowChars k c).bind
    (fun chars => (chars.mapM parseDnaChar).map (fun w => (w, c.headD "")))

/-- The index entries contributed by a list of barcode lines, starting at
barcode counter `i`: each line contributes its `entryPair`. -/
def blockList : List (List Dna × String) → Nat → List BcEntry
  | [], _ => []
  | p :: rest, i => entryPair p.1 p.2 i ++ blockList rest (i + 1)

/-- An entry list built entirely from forward/reverse-complement pairs that
share a value. -/
def IsChain (l : List BcEntry) : Prop :=
  ∃ bs : List (List Dna × BcId),
    l = bs.flatMap (fun p => [(p.1, p.2), (revcomp p.1, p.2)])

theorem insertSorted_perm (le : α → α → Bool) (a : α) (l : List α) :
    (insertSorted le a l).Perm (a :: l) := by
  induction l with
  | nil => simp [insertSorted]
  | cons b rest ih =>
      simp only [insertSorted]
      split
      · exact List.Perm.refl _
      · exact (ih.cons b).trans (List.Perm.swap a b rest)

theorem sortBy_perm (le : α → α → Bool) (l : List α) : (sortBy le l).Perm l := by
  induction l with
  | nil => exact List.Perm.refl _
  | cons a rest ih =>
      exact (insertSorted_perm le a (sortBy le rest)).trans (ih.cons a)

theorem insertSorted_pairwise (le : α → α → Bool)
    (htrans : ∀ x y z, le x y = true → le y z = true → le x z = true)
    (htot : ∀ x y, le x y = true ∨ le y x = true)
    (a : α) (l : List α) (h : l.Pairwise (fun x y => le x y = true)) :
    (insertSorted le a l).Pairwise (fun x y => le x y = true) := by
  induction l with
  | nil => simp [insertSorted]
  | cons b rest ih =>
      rcases h with _ | ⟨hb, hrest⟩
      simp only [insertSorted]
      split
      · rename_i hab
        exact .cons (fun x hx => by
          rcases List.mem_cons.mp hx with h | h
          · exact h ▸ hab
          · exact htrans a b x hab (hb x h)) (.cons hb hrest)
      · rename_i hab
        have hba : le b a = true := by
          rcases htot a b with h | h
          · exact absurd h hab
          · exact h
        refine .cons (fun x hx => ?_) (ih hrest)
        have hx' : x ∈ a :: rest := (insertSorted_perm le a rest).mem_iff.mp hx
        rcases List.mem_cons.mp hx' with h | h
        · exact h ▸ hba
        · exact hb x h

theorem sortBy_pairwise (le : α → α → Bool)
    (htrans : ∀ x y z, le x y = true → le y z = true → le x z = true)
    (htot : ∀ x y, le x y = true ∨ le y x = true) (l : List α) :
    (sortBy le l).Pairwise (fun x y => le x y = true) := by
  induction l with
  | nil => exact .nil
  | cons a rest ih => exact insertSorted_pairwise le htrans htot a _ ih

theorem windows_eq_nil_of_short (k : Nat) (s : List Dna) (h : s.length < k) :
    windows k s = [] := by
  cases s with
  | nil => rfl
  | cons a rest =>
      simp only [windows]
      rw [if_neg (by omega), if_pos h]

theorem windows_length (k : Nat) (s : List Dna) (hk : 0 < k) (h : k ≤ s.length) :
    (windows k s).length = s.length - k + 1 := by
  induction s with
  | nil => simp at h; omega
  | cons a rest ih =>
      simp only [windows]
      rw [if_neg (by omega), if_neg (by omega)]
      by_cases hr : k ≤ rest.length
      · rw [List.length_cons, ih hr]
        simp only [List.length_cons]
        omega
      · rw [windows_eq_nil_of_short k rest (by omega)]
        simp only [List.length_cons, List.length_nil]
        have : rest.length + 1 = k := by simp at h; omega
        omega

theorem windows_exact (k : Nat) (s : List Dna) (hk : 0 < k) (hl : s.length = k) :
    windows k s = [s] := by
  cases s with
  | nil => simp at hl; omega
  | cons a rest =>
      simp only [windows]
      rw [if_neg (by omega), if_neg (by omega),
        windows_eq_nil_of_short k rest (by simp at hl; omega),
        List.take_of_length_le (by omega)]

/-! ## C1 — coverage cap -/

/-- C1 counterexample: with budget 0, the first file's scan stops after its
first record (its per-file counter reached 1 > 0), yet scanning the sample's
second file still happens — the final counts (2 hits) differ from the counts
accumulated when the budget was exceeded (1 hit).  The claim says no
subsequent file of the sample is processed. -/
theorem coverage_cap_cex :
    scanReads db0 (some 0) [[.ok r1], [.ok w0]] [] 0 = .ok ([(("L", 0), 2)], 1) ∧
    scanReads db0 (some 0) [[.ok r1]] [] 0 = .ok ([(("L", 0), 1)], 1) ∧
    processBuffer db0 (some 0) [] 0 [.ok r1] = .ok ([(("L", 0), 1)], 1) :=
  ⟨by decide, by decide, by decide⟩

/-- C1 amended: once the PER-FILE k-mer counter exceeds the budget, no
further record of the current file is processed and the counts so far are
kept; scanning then continues with the sample's remaining files (each file
restarting its counter at 0). -/
theorem coverage_cap_per_file :
    (∀ (db : Barcodes) (m : Nat) (c : Counts) (kc : Nat) (seq : List Dna) (rs : List Rec),
      db.k ≤ seq.length → m < kc + (seq.length - db.k) →
      processBuffer db (some m) c kc (.ok seq :: rs)
        = .ok (processRecord db c seq, kc + (seq.length - db.k))) ∧
    (∀ (db : Barcodes) (lim : Option Nat) (f : List Rec) (fs : List (List Rec))
      (c c' : Counts) (t n : Nat),
      processBuffer db lim c 0 f = .ok (c', n) →
      scanReads db lim (f :: fs) c t = scanReads db lim fs c' (t + n)) := by
  constructor
  · intro db m c kc seq rs hlen hex
    simp only [processBuffer]
    rw [if_neg (by omega), if_pos hex]
  · intro db lim f fs c c' t n h
    simp only [scanReads, h]

/-- C1 amended, witnessed at the counterexample scenario. -/
theorem coverage_cap_per_file_witness :
    processBuffer db0 (some 0) [] 0 [.ok r1, .ok w0]
      = .ok (processRecord db0 [] r1, 0 + (r1.length - db0.k)) ∧
    scanReads db0 (some 0) [[.ok r1], [.ok w0]] [] 0
      = scanReads db0 (some 0) [[.ok w0]] [(("L", 0), 1)] (0 + 1) :=
  ⟨coverage_cap_per_file.1 db0 0 [] 0 r1 [.ok w0] (by decide) (by decide),
   coverage_cap_per_file.2 db0 (some 0) [.ok r1] [[.ok w0]] [] [(("L", 0), 1)] 0 1 (by decide)⟩

/-! ## C2 — parse-error handling -/

/-- C2: evaluation at a failing input.  A decoder error surfaces as
`"Error in file: <decoder message>"` — the file's identity is not part of
the message — and `main`'s `Err(_e) => {}` arm writes no row for the
sample: the batch report contains only the healthy sample's row, with no
error recorded anywhere. -/
theorem parse_error_sample_dropped :
    scanReads db0 none [[.error "invalid record"]] [] 0
      = .error "Error in file: invalid record" ∧
    runSample db0 (some 3) 4 3 ⟨"bad", .Single, [[.error "invalid record"]]⟩ = none ∧
    runBatch db0 (some 3) 4 3
      [⟨"good", .Single, [[.ok w0]]⟩, ⟨"bad", .Single, [[.error "invalid record"]]⟩]
      = ["good\tsingle\t0\tno\t\t\t"] :=
  ⟨by decide, by decide, by decide⟩

/-! ## C6 — median -/

/-- C6: the median is the central element (odd length) or the truncated
average of the two central elements (even length) of an ascending-sorted
permutation of the input, and `median [2,4] = 3`, `median [2,4,9] = 4`,
`median [1] = 1`. -/
theorem median_is_sorted_middle (l : List Nat) (_h : l ≠ []) :
    (∃ s : List Nat, l.Perm s ∧ s.Sorted (· ≤ ·) ∧
      median l = if s.length % 2 = 0
        then (s.getD (s.length / 2 - 1) 0 + s.getD (s.length / 2) 0) / 2
        else s.getD (s.length / 2) 0) ∧
    median [2, 4] = 3 ∧ median [2, 4, 9] = 4 ∧ median [1] = 1 := by
  refine ⟨⟨sortBy (fun a b => a ≤ b) l, (sortBy_perm _ l).symm, ?_, rfl⟩, by decide, by decide, by decide⟩
  have hp := sortBy_pairwise (fun a b : Nat => a ≤ b)
    (fun x y z hxy hyz => by simp only [decide_eq_true_eq] at *; omega)
    (fun x y => by by_cases hxy : x ≤ y
                   · exact .inl (by simpa)
                   · exact .inr (by simp only [decide_eq_true_eq]; omega)) l
  exact hp.imp (fun hxy => by simpa using hxy)

/-- C6 witnessed at `[2, 4]`. -/
theorem median_is_sorted_middle_witness :
    (∃ s : List Nat, [2, 4].Perm s ∧ s.Sorted (· ≤ ·) ∧
      median [2, 4] = if s.length % 2 = 0
        then (s.getD (s.length / 2 - 1) 0 + s.getD (s.length / 2) 0) / 2
        else s.getD (s.length / 2) 0) ∧
    median [2, 4] = 3 ∧ median [2, 4, 9] = 4 ∧ median [1] = 1 :=
  median_is_sorted_middle [2, 4] (by decide)

/-! ## C8 — per-record window accounting -/

/-- C8: a record shorter than `k` contributes nothing (neither counts nor
k-mer counter); otherwise its windows are looked up — there are
`length - k + 1` of them — and the k-mer counter grows by exactly
`length - k`. -/
theorem record_window_accounting (db : Barcodes) (lim : Option Nat) (c : Counts)
    (kc : Nat) (seq : List Dna) (rs : List Rec) (hk : 0 < db.k) :
    (seq.length < db.k →
      processBuffer db lim c kc (.ok seq :: rs) = processBuffer db lim c kc rs) ∧
    (db.k ≤ seq.length →
      processBuffer db lim c kc [.ok seq]
        = .ok (processRecord db c seq, kc + (seq.length - db.k)) ∧
      (windows db.k seq).length = seq.length - db.k + 1) := by
  constructor
  · intro hshort
    simp only [processBuffer]
    rw [if_pos hshort]
  · intro hlen
    refine ⟨?_, windows_length db.k seq hk hlen⟩
    cases lim with
    | none =>
        simp only [processBuffer]
        rw [if_neg (by omega)]
    | some m =>
        simp only [processBuffer]
        rw [if_neg (by omega)]
        split <;> rfl

/-- C8 witnessed at a record of length 11 = k against `db0`. -/
theorem record_window_accounting_witness :
    processBuffer db0 none [] 0 [.ok w0]
      = .ok (processRecord db0 [] w0, 0 + (w0.length - db0.k)) ∧
    (windows db0.k w0).length = w0.length - db0.k + 1 :=
  (record_window_accounting db0 none [] 0 w0 [] (by decide)).2 (by decide)

/-! ## C3 — genome-size errors -/

theorem fromGo_genome (k : Nat) :
    ∀ (lines : List (List String)), (∀ c ∈ lines, goodLine k c = true) →
    ∀ (acc : List BcEntry) (g cnt : Nat),
      (genomeResult g lines = none → fromGo k lines acc g cnt = .error .genomeParse) ∧
      (genomeResult g lines = some 0 → fromGo k lines acc g cnt = .error .genomeMissing) ∧
      (∀ v, 0 < v → genomeResult g lines = some v →
        ∃ bl, fromGo k lines acc g cnt = .ok ⟨bl, v, k⟩) := by
  intro lines
  induction lines with
  | nil =>
      intro _ acc g cnt
      refine ⟨fun h => by simp [genomeResult] at h, fun h => ?_, fun v hv h => ?_⟩
      · simp only [genomeResult, Option.some.injEq] at h
        simp [fromGo, h]
      · simp only [genomeResult, Option.some.injEq] at h
        subst h
        exact ⟨acc, by simp [fromGo, Nat.pos_iff_ne_zero.mp hv]⟩
  | cons c rest ih =>
      intro hgood acc g cnt
      have hc := hgood c (List.mem_cons_self _ _)
      have hrest := fun c hc => hgood c (List.mem_cons_of_mem _ hc)
      by_cases hctl : isControl c = true
      · rw [goodLine, if_pos hctl] at hc
        have hlen : ¬c.length < 2 := by
          simp only [decide_eq_true_eq] at hc
          omega
        cases hval : parseU64 (c.getD 1 "") with
        | none =>
            have hstep : fromGo k (c :: rest) acc g cnt = .error .genomeParse := by
              simp only [fromGo, hctl, if_true]
              rw [if_neg hlen, hval]
            have hres : genomeResult g (c :: rest) = none := by
              simp only [genomeResult, hctl, if_true]
              rw [hval]
            refine ⟨fun _ => hstep, fun h => ?_, fun v hv h => ?_⟩ <;>
              rw [hres] at h <;> exact absurd h (by simp)
        | some v' =>
            have hstep : fromGo k (c :: rest) acc g cnt = fromGo k rest acc v' cnt := by
              simp only [fromGo, hctl, if_true]
              rw [if_neg hlen, hval]
            have hres : genomeResult g (c :: rest) = genomeResult v' rest := by
              simp only [genomeResult, hctl, if_true]
              rw [hval]
            rw [hstep, hres]
            exact ih hrest acc v' cnt
      · rw [goodLine, if_neg hctl] at hc
        cases hw : lineWindowChars k c with
        | none => rw [hw] at hc; exact absurd hc (by simp)
        | some chars =>
            rw [hw] at hc
            simp only [Option.isSome] at hc
            cases hmap : chars.mapM parseDnaChar with
            | none => rw [hmap] at hc; exact absurd hc (by simp)
            | some w =>
                have hstep : fromGo k (c :: rest) acc g cnt
                    = fromGo k rest (acc ++ entryPair w (c.headD "") cnt) g (cnt + 1) := by
                  simp only [fromGo]
                  rw [if_neg hctl, hw]
                  simp only [hmap]
                have hres : genomeResult g (c :: rest) = genomeResult g rest := by
                  simp only [genomeResult]
                  rw [if_neg hctl]
                rw [hstep, hres]
                exact ih hrest _ g (cnt + 1)

/-- C3 counterexample: the text whose only line is `genome_size<TAB>0` has
a present, successfully parsing control line, yet construction fails with
the missing-genome-size error (the claim predicts success with
`genome_size = 0`). -/
theorem genome_zero_cex :
    fromLines [["genome_size", "0"]] 25 = .error .genomeMissing ∧
    isControl ["genome_size", "0"] = true ∧
    parseU64 "0" = some 0 :=
  ⟨by decide, by decide, by decide⟩

/-- C3 amended: over well-formed lines, construction fails with the
parse `ConfigError` iff some control line's value fails parsing, fails with
the missing-genome-size `ConfigError` iff the control lines all parse but
leave the genome size at 0 (no control line, or the last one has value 0),
and otherwise succeeds with the genome size equal to the last control
line's value. -/
theorem genome_size_characterisation (lines : List (List String)) (k : Nat)
    (h : ∀ c ∈ lines, goodLine k c = true) :
    (fromLines lines k = .error .genomeParse ↔ genomeResult 0 lines = none) ∧
    (fromLines lines k = .error .genomeMissing ↔ genomeResult 0 lines = some 0) ∧
    (∀ db, fromLines lines k = .ok db → genomeResult 0 lines = some db.genome_size) := by
  obtain ⟨h1, h2, h3⟩ := fromGo_genome k lines h [] 0 0
  have cases3 : ∀ (P : Prop), (genomeResult 0 lines = none → P) →
      (genomeResult 0 lines = some 0 → P) →
      (∀ v, 0 < v → genomeResult 0 lines = some v → P) → P := by
    intro P pn p0 pv
    cases hg : genomeResult 0 lines with
    | none => exact pn hg
    | some v =>
        cases v with
        | zero => exact p0 hg
        | succ v' => exact pv _ (Nat.succ_pos v') hg
  refine ⟨⟨fun he => ?_, fun hg => h1 hg⟩, ⟨fun he => ?_, fun hg => h2 hg⟩, fun db hok => ?_⟩
  · refine cases3 _ (fun hg => hg) (fun hg => ?_) (fun v hv hg => ?_)
    · rw [fromLines] at he
      rw [h2 hg] at he
      exact absurd (by injection he) (by simp)
    · obtain ⟨bl, hbl⟩ := h3 v hv hg
      rw [fromLines] at he
      rw [hbl] at he
      exact absurd he (by simp)
  · refine cases3 _ (fun hg => ?_) (fun hg => hg) (fun v hv hg => ?_)
    · rw [fromLines] at he
      rw [h1 hg] at he
      exact absurd (by injection he) (by simp)
    · obtain ⟨bl, hbl⟩ := h3 v hv hg
      rw [fromLines] at he
      rw [hbl] at he
      exact absurd he (by simp)
  · refine cases3 _ (fun hg => ?_) (fun hg => ?_) (fun v hv hg => ?_)
    · rw [fromLines] at hok
      rw [h1 hg] at hok
      exact absurd hok (by simp)
    · rw [fromLines] at hok
      rw [h2 hg] at hok
      exact absurd hok (by simp)
    · obtain ⟨bl, hbl⟩ := h3 v hv hg
      rw [fromLines] at hok
      rw [hbl] at hok
      have : db = ⟨bl, v, k⟩ := by injection hok with h'; exact h'.symm
      rw [this, hg]

/-- C3 amended, witnessed on the two-line reference `L0`. -/
theorem genome_size_characterisation_witness :
    genomeResult 0 L0 = some db0.genome_size :=
  (genome_size_characterisation L0 11 (by decide)).2.2 db0 (by decide)

/-! ## C9 — monotone merge filtering -/

theorem memEntry_nil (lin : String) (n : Nat) : ¬memEntry [] lin n := by
  rintro ⟨ns, hmem, _⟩
  exact absurd hmem (List.not_mem_nil _)

theorem memEntry_cons (e : String × List Nat) (m : List (String × List Nat))
    (lin : String) (n : Nat) :
    memEntry (e :: m) lin n ↔ (lin = e.1 ∧ n ∈ e.2) ∨ memEntry m lin n := by
  constructor
  · rintro ⟨ns, hmem, hn⟩
    rcases List.mem_cons.mp hmem with h | h
    · cases h.symm
      exact .inl ⟨rfl, hn⟩
    · exact .inr ⟨ns, h, hn⟩
  · rintro (⟨h1, h2⟩ | ⟨ns, hmem, hn⟩)
    · exact ⟨e.2, by rw [h1, Prod.mk.eta]; exact List.mem_cons_self _ _, h2⟩
    · exact ⟨ns, List.mem_cons_of_mem _ hmem, hn⟩

theorem memEntry_addTo (m : List (String × List Nat)) (lin l' : String) (n n' : Nat) :
    memEntry (addTo m lin n) l' n' ↔ memEntry m l' n' ∨ (l' = lin ∧ n' = n) := by
  induction m with
  | nil =>
      simp only [addTo, memEntry_cons, memEntry_nil]
      constructor
      · rintro (⟨h1, h2⟩ | h)
        · rcases List.mem_singleton.mp h2 with h2
          exact .inr ⟨h1, h2⟩
        · exact h.elim
      · rintro (h | ⟨h1, h2⟩)
        · exact h.elim
        · exact .inl ⟨h1, by rw [h2]; exact List.mem_singleton_self _⟩
  | cons e rest ih =>
      simp only [addTo]
      split
      · rename_i he
        simp only [memEntry_cons, List.mem_append, List.mem_singleton]
        constructor
        · rintro (⟨h1, h2 | h2⟩ | h)
          · exact .inl (.inl ⟨h1, h2⟩)
          · exact .inr ⟨h1.trans he, h2⟩
          · exact .inl (.inr h)
        · rintro ((⟨h1, h2⟩ | h) | ⟨h1, h2⟩)
          · exact .inl ⟨h1, .inl h2⟩
          · exact .inr h
          · exact .inl ⟨h1.trans he.symm, .inr h2⟩
      · simp only [memEntry_cons, ih]
        tauto

/-- C9: raising the minimum count can only shrink the merged evidence map:
every `(lineage, count)` item of the merge at `minC'` is an item of the
merge at any `minC ≤ minC'`. -/
theorem merge_min_count_monotone (counts : Counts) (minC minC' : Nat)
    (hle : minC ≤ minC') (lin : String) (n : Nat)
    (h : memEntry (mergeBarcodes counts minC') lin n) :
    memEntry (mergeBarcodes counts minC) lin n := by
  suffices H : ∀ (cs : Counts) (a a' : List (String × List Nat)),
      (∀ l m, memEntry a' l m → memEntry a l m) →
      ∀ l m,
        memEntry (cs.foldl (fun acc e => if minC' ≤ e.2 then addTo acc e.1.1 e.2 else acc) a') l m →
        memEntry (cs.foldl (fun acc e => if minC ≤ e.2 then addTo acc e.1.1 e.2 else acc) a) l m by
    exact H counts [] [] (fun _ _ h => h) lin n h
  intro cs
  induction cs with
  | nil => exact fun a a' hsub l m hm => hsub l m hm
  | cons e rest ih =>
      intro a a' hsub l m hm
      simp only [List.foldl_cons] at hm ⊢
      refine ih _ _ ?_ l m hm
      intro l' m' h'
      by_cases h2 : minC' ≤ e.2
      · rw [if_pos h2] at h'
        rw [if_pos (le_trans hle h2)]
        rcases (memEntry_addTo _ _ _ _ _).mp h' with h' | h'
        · exact (memEntry_addTo _ _ _ _ _).mpr (.inl (hsub _ _ h'))
        · exact (memEntry_addTo _ _ _ _ _).mpr (.inr h')
      · rw [if_neg h2] at h'
        by_cases h1 : minC ≤ e.2
        · rw [if_pos h1]
          exact (memEntry_addTo _ _ _ _ _).mpr (.inl (hsub _ _ h'))
        · rw [if_neg h1]
          exact hsub _ _ h'

/-- C9 witnessed: the count-5 item of lineage `L` survives lowering the
threshold from 3 to 2. -/
theorem merge_min_count_monotone_witness :
    memEntry (mergeBarcodes [(("L", 0), 5)] 2) "L" 5 :=
  merge_min_count_monotone [(("L", 0), 5)] 2 3 (by decide) "L" 5
    ⟨[5], by decide, by decide⟩

/-! ## C10 — assembly parameters -/

/-- C10: assemblies are scanned with no k-mer budget (whatever cap is
configured) and merged with a minimum count of 1, while single and paired
samples use the configured cap and minimum count; and a scan with no
budget runs the cap-free streaming loop, processing every record. -/
theorem assembly_unbounded_params (cap : Option Nat) (mc : Nat) :
    chooseParams .Assembly cap mc = (none, 1) ∧
    chooseParams .Single cap mc = (cap, mc) ∧
    chooseParams .Paired cap mc = (cap, mc) ∧
    ∀ (db : Barcodes) (c : Counts) (kc : Nat) (rs : List Rec),
      processBuffer db none c kc rs = processAll db c kc rs := by
  refine ⟨rfl, rfl, rfl, ?_⟩
  intro db c kc rs
  induction rs generalizing c kc with
  | nil => rfl
  | cons r rest ih =>
      cases r with
      | error e => rfl
      | ok seq =>
          simp only [processBuffer, processAll]
          split
          · exact ih c kc
          · exact ih _ _

/-! ## C7 — specificity reduction and call string -/

theorem prefixOf_refl (a : List Char) : a.isPrefixOf a = true := by
  induction a with
  | nil => rfl
  | cons x xs ih => simp [List.isPrefixOf, ih]

theorem prefixOf_trans : ∀ {a b c : List Char},
    a.isPrefixOf b = true → b.isPrefixOf c = true → a.isPrefixOf c = true := by
  intro a
  induction a with
  | nil => intro b c _ _; cases c <;> rfl
  | cons x xs ih =>
      intro b c h1 h2
      cases b with
      | nil => simp [List.isPrefixOf] at h1
      | cons y ys =>
          cases c with
          | nil => simp [List.isPrefixOf] at h2
          | cons z zs =>
              simp only [List.isPrefixOf, Bool.and_eq_true, beq_iff_eq] at h1 h2 ⊢
              exact ⟨h1.1.trans h2.1, ih h1.2 h2.2⟩

theorem prefixOf_length : ∀ {a b : List Char},
    a.isPrefixOf b = true → a.length ≤ b.length := by
  intro a
  induction a with
  | nil => intro b _; simp
  | cons x xs ih =>
      intro b h
      cases b with
      | nil => simp [List.isPrefixOf] at h
      | cons y ys =>
          simp only [List.isPrefixOf, Bool.and_eq_true] at h
          simpa using ih h.2

theorem prefixOf_full : ∀ {a b : List Char},
    a.isPrefixOf b = true → b.length ≤ a.length → a = b := by
  intro a
  induction a with
  | nil =>
      intro b _ hlen
      cases b with
      | nil => rfl
      | cons y ys => simp at hlen
  | cons x xs ih =>
      intro b h hlen
      cases b with
      | nil => simp [List.isPrefixOf] at h
      | cons y ys =>
          simp only [List.isPrefixOf, Bool.and_eq_true, beq_iff_eq] at h
          simp only [List.length_cons] at hlen
          rw [h.1, ih h.2 (by omega)]

theorem exists_max_measure {β : Type} (f : β → Nat) :
    ∀ (l : List β), l ≠ [] → ∃ m ∈ l, ∀ r ∈ l, f r ≤ f m := by
  intro l
  induction l with
  | nil => intro h; exact absurd rfl h
  | cons a rest ih =>
      intro _
      cases rest with
      | nil =>
          refine ⟨a, List.mem_cons_self _ _, fun r hr => ?_⟩
          rcases List.mem_cons.mp hr with h | h
          · exact h ▸ le_refl _
          · exact absurd h (List.not_mem_nil _)
      | cons b rs =>
          obtain ⟨m, hm, hmax⟩ := ih (by simp)
          by_cases hfa : f a ≤ f m
          · refine ⟨m, List.mem_cons_of_mem _ hm, fun r hr => ?_⟩
            rcases List.mem_cons.mp hr with h | h
            · exact h ▸ hfa
            · exact hmax r h
          · refine ⟨a, List.mem_cons_self _ _, fun r hr => ?_⟩
            rcases List.mem_cons.mp hr with h | h
            · exact h ▸ le_refl _
            · exact (hmax r h).trans (by omega)

theorem mem_nonInclusive (filtered : List (String × Nat)) (e : String × Nat) :
    e ∈ nonInclusive filtered ↔
      e ∈ filtered ∧
        ∀ q ∈ filtered, ¬(e.1.data.isPrefixOf q.1.data = true ∧ e.1 ≠ q.1) := by
  simp only [nonInclusive, List.mem_filter, Bool.not_eq_true']
  refine and_congr_right fun _ => ?_
  rw [strictlyBelow, List.any_eq_false]
  constructor
  · intro h q hq hbad
    refine h q.1 (List.mem_map_of_mem _ hq) ?_
    simp only [Bool.and_eq_true, decide_eq_true_eq]
    exact hbad
  · intro h key hkey
    obtain ⟨q, hq, rfl⟩ := List.mem_map.mp hkey
    simp only [Bool.and_eq_true, decide_eq_true_eq]
    exact h q hq

/-- C7 counterexample: on the filtered map with entries `B ↦ 1`, `A ↦ 2`
(in that iteration order, no prefix relation), the program's final call
string is `"B (1), A (2)"`, not the lexicographically sorted rendering
`"A (2), B (1)"` the claim requires. -/
theorem call_string_unsorted_cex :
    callString (nonInclusive [("B", 1), ("A", 2)]) = "B (1), A (2)" ∧
    sortedCallString [("B", 1), ("A", 2)] = "A (2), B (1)" ∧
    callString (nonInclusive [("B", 1), ("A", 2)])
      ≠ sortedCallString [("B", 1), ("A", 2)] :=
  ⟨by decide, by decide, by decide⟩

/-- C7 amended: the reduction removes exactly the entries whose name is a
strict prefix of another SURVIVING entry's name (this part of the claim
holds), and the final call string joins the survivors rendered
`name (median)` with `", "` in the map's iteration order — not sorted —
yielding the empty string when no entry survives. -/
theorem nonInclusive_maximal (filtered : List (String × Nat)) :
    (∀ e, e ∈ nonInclusive filtered ↔
      e ∈ filtered ∧
        ∀ q ∈ nonInclusive filtered,
          ¬(e.1.data.isPrefixOf q.1.data = true ∧ e.1 ≠ q.1)) ∧
    callString (nonInclusive filtered)
      = String.intercalate ", " ((nonInclusive filtered).map renderPair) ∧
    (nonInclusive filtered = [] → callString (nonInclusive filtered) = "") := by
  refine ⟨fun e => ?_, rfl, fun h => by rw [h]; rfl⟩
  constructor
  · intro he
    obtain ⟨hmem, hall⟩ := (mem_nonInclusive filtered e).mp he
    exact ⟨hmem, fun q hq =>
      hall q ((mem_nonInclusive filtered q).mp hq).1⟩
  · rintro ⟨hmem, hsurv⟩
    refine (mem_nonInclusive filtered e).mpr ⟨hmem, fun q hq hbad => ?_⟩
    have hS : q ∈ filtered.filter
        (fun r => e.1.data.isPrefixOf r.1.data && e.1 ≠ r.1) := by
      rw [List.mem_filter]
      exact ⟨hq, by simp only [Bool.and_eq_true, decide_eq_true_eq]; exact hbad⟩
    obtain ⟨m, hmS, hmax⟩ := exists_max_measure (fun r : String × Nat => r.1.data.length)
      (filtered.filter (fun r => e.1.data.isPrefixOf r.1.data && e.1 ≠ r.1))
      (by intro hnil; rw [hnil] at hS; exact absurd hS (List.not_mem_nil _))
    rw [List.mem_filter] at hmS
    obtain ⟨hmF, hmP⟩ := hmS
    simp only [Bool.and_eq_true, decide_eq_true_eq] at hmP
    have hmNI : m ∈ nonInclusive filtered := by
      refine (mem_nonInclusive filtered m).mpr ⟨hmF, fun r hr hbad2 => ?_⟩
      have hrS : r ∈ filtered.filter
          (fun r => e.1.data.isPrefixOf r.1.data && e.1 ≠ r.1) := by
        rw [List.mem_filter]
        refine ⟨hr, by
          simp only [Bool.and_eq_true, decide_eq_true_eq]
          refine ⟨prefixOf_trans hmP.1 hbad2.1, fun her => ?_⟩
          have h1 := prefixOf_length hmP.1
          have h2 := prefixOf_length hbad2.1
          have : m.1 = r.1 := String.ext (prefixOf_full hbad2.1 (by
            rw [← her] at h2 ⊢
            have := prefixOf_full hmP.1 (by omega)
            omega))
          exact hbad2.2 this⟩
      have hlen := hmax r hrS
      have hlt := prefixOf_length hbad2.1
      have : m.1 = r.1 := String.ext (prefixOf_full hbad2.1 (by omega))
      exact hbad2.2 this
    exact (hsurv m hmNI) ⟨hmP.1, hmP.2⟩

/-- C7 amended, witnessed: the empty-survivor clause at the empty filtered
map. -/
theorem nonInclusive_maximal_witness :
    callString (nonInclusive ([] : List (String × Nat))) = "" :=
  (nonInclusive_maximal []).2.2 (by decide)

/-! ## C4 — index shape -/

theorem fromGo_entries (k : Nat) :
    ∀ (lines : List (List String)) (acc : List BcEntry) (g cnt : Nat) (db : Barcodes),
      fromGo k lines acc g cnt = .ok db →
      db.k = k ∧
      ∃ ws, (lines.filter (fun c => !isControl c)).mapM (lineData k) = some ws ∧
        db.barcodes = acc ++ blockList ws cnt := by
  intro lines
  induction lines with
  | nil =>
      intro acc g cnt db h
      simp only [fromGo] at h
      split at h
      · exact absurd h (by simp)
      · have hdb : db = ⟨acc, g, k⟩ := by injection h with h'; exact h'.symm
        subst hdb
        exact ⟨rfl, [], rfl, by simp [blockList]⟩
  | cons c rest ih =>
      intro acc g cnt db h
      by_cases hctl : isControl c = true
      · rw [List.filter_cons_of_neg (by simp [hctl])]
        simp only [fromGo, hctl, if_true] at h
        split at h
        · exact absurd h (by simp)
        · split at h
          · exact absurd h (by simp)
          · exact ih acc _ cnt db h
      · rw [List.filter_cons_of_pos (by simp [hctl])]
        rw [fromGo, if_neg hctl] at h
        cases hw : lineWindowChars k c with
        | none => rw [hw] at h; exact absurd h (by simp)
        | some chars =>
            rw [hw] at h
            simp only [] at h
            cases hmap : chars.mapM parseDnaChar with
            | none => rw [hmap] at h; exact absurd h (by simp)
            | some w =>
                rw [hmap] at h
                obtain ⟨hk, ws', hws', hbar⟩ := ih _ g (cnt + 1) db h
                refine ⟨hk, (w, c.headD "") :: ws', ?_, ?_⟩
                · rw [List.mapM_cons]
                  have hld : lineData k c = some (w, c.headD "") := by
                    rw [lineData, hw, Option.some_bind, hmap]
                    rfl
                  rw [hld, hws']
                  rfl
                · rw [hbar, blockList, List.append_assoc]

/-- C4: after a successful construction, the index's insertion sequence is
exactly, per barcode line in order, the pair of entries `entryPair w lin i`
— the forward window and its reverse complement, both carrying the same
`(lineage, id)` value — and for a self-palindromic window those two
entries are the same entry written twice. -/
theorem barcode_db_shape (lines : List (List String)) (k : Nat) (db : Barcodes)
    (h : fromLines lines k = .ok db) :
    (∃ ws, (lines.filter (fun c => !isControl c)).mapM (lineData k) = some ws ∧
      db.barcodes = blockList ws 0) ∧
    (∀ (w : List Dna) (lin : String) (i : Nat),
      entryPair w lin i = [(w, (lin, i)), (revcomp w, (lin, i))] ∧
      (revcomp w = w → entryPair w lin i = [(w, (lin, i)), (w, (lin, i))])) := by
  obtain ⟨-, ws, hws, hbar⟩ := fromGo_entries k lines [] 0 0 db h
  refine ⟨⟨ws, hws, by simpa using hbar⟩, fun w lin i => ⟨rfl, fun hp => ?_⟩⟩
  rw [entryPair, hp]

/-- C4 witnessed on `L0`: its single barcode line yields the two entries of
`db0`. -/
theorem barcode_db_shape_witness :
    (∃ ws, (L0.filter (fun c => !isControl c)).mapM (lineData 11) = some ws ∧
      db0.barcodes = blockList ws 0) ∧
    (∀ (w : List Dna) (lin : String) (i : Nat),
      entryPair w lin i = [(w, (lin, i)), (revcomp w, (lin, i))] ∧
      (revcomp w = w → entryPair w lin i = [(w, (lin, i)), (w, (lin, i))])) :=
  barcode_db_shape L0 11 db0 (by decide)

/-! ## C5 — reverse-complement symmetry -/

theorem comp_comp (d : Dna) : d.comp.comp = d := by cases d <;> rfl

theorem revcomp_revcomp (s : List Dna) : revcomp (revcomp s) = s := by
  have hcc : Dna.comp ∘ Dna.comp = id := funext comp_comp
  simp [revcomp, List.map_reverse, List.map_map, hcc]

theorem revcomp_length (s : List Dna) : (revcomp s).length = s.length := by
  simp [revcomp]

theorem revcomp_inj {a b : List Dna} (h : revcomp a = revcomp b) : a = b := by
  rw [← revcomp_revcomp a, h, revcomp_revcomp]

theorem chain_append {l1 l2 : List BcEntry} (h1 : IsChain l1) (h2 : IsChain l2) :
    IsChain (l1 ++ l2) := by
  obtain ⟨bs1, rfl⟩ := h1
  obtain ⟨bs2, rfl⟩ := h2
  exact ⟨bs1 ++ bs2, by simp⟩

theorem blockList_chain : ∀ (ws : List (List Dna × String)) (i : Nat),
    IsChain (blockList ws i) := by
  intro ws
  induction ws with
  | nil => exact fun _ => ⟨[], rfl⟩
  | cons p rest ih =>
      intro i
      obtain ⟨bs, hbs⟩ := ih (i + 1)
      exact ⟨(p.1, (p.2, i)) :: bs, by simp [blockList, entryPair, hbs]⟩

theorem chain_reverse {l : List BcEntry} (h : IsChain l) : IsChain l.reverse := by
  obtain ⟨bs, rfl⟩ := h
  induction bs with
  | nil => exact ⟨[], rfl⟩
  | cons p bs ih =>
      rw [List.flatMap_cons, List.reverse_append]
      refine chain_append ih ⟨[(revcomp p.1, p.2)], ?_⟩
      simp [revcomp_revcomp]

theorem chain_find_symm {l : List BcEntry} (h : IsChain l) (x : List Dna) :
    (l.find? (fun e => decide (e.1 = revcomp x))).map (·.2)
      = (l.find? (fun e => decide (e.1 = x))).map (·.2) := by
  obtain ⟨bs, rfl⟩ := h
  induction bs with
  | nil => rfl
  | cons p bs ih =>
      rw [List.flatMap_cons, List.cons_append, List.cons_append, List.nil_append]
      by_cases h1 : x = p.1
      · subst h1
        by_cases hpal : revcomp p.1 = p.1
        · have e1 : decide ((p.1 : List Dna) = revcomp p.1) = true :=
            decide_eq_true hpal.symm
          have e3 : decide ((p.1 : List Dna) = p.1) = true := by simp
          simp only [List.find?_cons, e1, e3, eq_self_iff_true, decide_True]
        · have e1 : decide ((p.1 : List Dna) = revcomp p.1) = false :=
            decide_eq_false (fun he => hpal he.symm)
          have e2 : decide (revcomp p.1 = revcomp p.1) = true := by simp
          have e3 : decide ((p.1 : List Dna) = p.1) = true := by simp
          simp only [List.find?_cons, e1, e2, e3, eq_self_iff_true, decide_True]
          rfl
      · by_cases h2 : x = revcomp p.1
        · subst h2
          have e1 : decide ((p.1 : List Dna) = revcomp (revcomp p.1)) = true :=
            decide_eq_true (revcomp_revcomp p.1).symm
          have e2 : decide ((p.1 : List Dna) = revcomp p.1) = false :=
            decide_eq_false (fun he => h1 he.symm)
          have e3 : decide (revcomp p.1 = revcomp p.1) = true := by simp
          simp only [List.find?_cons, e1, e2, e3, eq_self_iff_true, decide_True]
          rfl
        · have e1 : decide ((p.1 : List Dna) = revcomp x) = false :=
            decide_eq_false (fun he => h2 (by rw [he, revcomp_revcomp]))
          have e2 : decide (revcomp p.1 = revcomp x) = false :=
            decide_eq_false (fun he => h1 (revcomp_inj he).symm)
          have e3 : decide ((p.1 : List Dna) = x) = false :=
            decide_eq_false (fun he => h1 he.symm)
          have e4 : decide (revcomp p.1 = x) = false :=
            decide_eq_false (fun he => h2 he.symm)
          simp only [List.find?_cons, e1, e2, e3, e4]
          exact ih

theorem blockList_mem : ∀ (ws : List (List Dna × String)) (i : Nat) (w : List Dna)
    (v : BcId), (w, v) ∈ blockList ws i → ∃ p ∈ ws, w = p.1 ∨ w = revcomp p.1 := by
  intro ws
  induction ws with
  | nil => intro i w v h; exact absurd h (List.not_mem_nil _)
  | cons p rest ih =>
      intro i w v h
      rw [blockList] at h
      rcases List.mem_append.mp h with h | h
      · rcases List.mem_cons.mp h with h | h
        · exact ⟨p, List.mem_cons_self _ _, .inl (congrArg Prod.fst h)⟩
        · rcases List.mem_singleton.mp h with h
          exact ⟨p, List.mem_cons_self _ _, .inr (congrArg Prod.fst h)⟩
      · obtain ⟨q, hq, hor⟩ := ih (i + 1) w v h
        exact ⟨q, List.mem_cons_of_mem _ hq, hor⟩

theorem mapM_mem {α β : Type} : ∀ (l : List α) (f : α → Option β) (l' : List β),
    l.mapM f = some l' → ∀ b ∈ l', ∃ a ∈ l, f a = some b := by
  intro l
  induction l with
  | nil =>
      intro f l' h b hb
      simp only [List.mapM_nil] at h
      cases h
      exact absurd hb (List.not_mem_nil _)
  | cons a rest ih =>
      intro f l' h b hb
      rw [List.mapM_cons] at h
      cases hf : f a with
      | none => rw [hf] at h; exact absurd h (by simp)
      | some d =>
          rw [hf] at h
          cases hr : rest.mapM f with
          | none => rw [hr] at h; exact absurd h (by simp)
          | some ds =>
              rw [hr] at h
              simp only [Option.bind_eq_bind, Option.some_bind, Option.pure_def,
                Option.some.injEq] at h
              subst h
              rcases List.mem_cons.mp hb with hb | hb
              · exact ⟨a, List.mem_cons_self _ _, hb ▸ hf⟩
              · obtain ⟨a', ha', hfa'⟩ := ih f ds hr b hb
                exact ⟨a', List.mem_cons_of_mem _ ha', hfa'⟩

theorem mapM_length {α β : Type} : ∀ (l : List α) (f : α → Option β) (l' : List β),
    l.mapM f = some l' → l'.length = l.length := by
  intro l
  induction l with
  | nil =>
      intro f l' h
      simp only [List.mapM_nil] at h
      cases h
      rfl
  | cons a rest ih =>
      intro f l' h
      rw [List.mapM_cons] at h
      cases hf : f a with
      | none => rw [hf] at h; exact absurd h (by simp)
      | some d =>
          rw [hf] at h
          cases hr : rest.mapM f with
          | none => rw [hr] at h; exact absurd h (by simp)
          | some ds =>
              rw [hr] at h
              simp only [Option.bind_eq_bind, Option.some_bind, Option.pure_def,
                Option.some.injEq] at h
              subst h
              simp [ih f ds hr]

theorem lineWindow_length (k : Nat) (c : List String) (chars : List Char)
    (h : lineWindowChars k c = some chars) : chars.length = k ∧ 0 < k := by
  rw [lineWindowChars] at h
  split at h
  · exact absurd h (by simp)
  · split at h
    · exact absurd h (by simp)
    · rename_i hk0
      split at h
      · exact absurd h (by simp)
      · rename_i hhalf
        rw [sliceStr] at h
        split at h
        · rename_i hrange
          injection h with h'
          subst h'
          refine ⟨?_, by omega⟩
          rw [List.length_take, List.length_drop]
          omega
        · exact absurd h (by simp)

theorem lineData_length (k : Nat) (c : List String) (w : List Dna) (lin : String)
    (h : lineData k c = some (w, lin)) : w.length = k ∧ 0 < k := by
  rw [lineData] at h
  cases hw : lineWindowChars k c with
  | none => rw [hw] at h; exact absurd h (by simp)
  | some chars =>
      rw [hw, Option.some_bind] at h
      cases hmap : chars.mapM parseDnaChar with
      | none => rw [hmap] at h; exact absurd h (by simp)
      | some w' =>
          rw [hmap] at h
          simp only [Option.map_some', Option.some.injEq, Prod.mk.injEq] at h
          obtain ⟨h1, h2⟩ := h
          subst h1
          exact ⟨(mapM_length chars parseDnaChar w' hmap).trans
            (lineWindow_length k c chars hw).1, (lineWindow_length k c chars hw).2⟩

/-- C5: for every entry `(w, v)` of a successfully constructed database,
looking up `w` and looking up `revcomp w` give the same barcode id, and
scanning a one-window record equal to `revcomp w` updates the counts
exactly as scanning the record `w` does. -/
theorem revcomp_lookup_symmetry (lines : List (List String)) (k : Nat) (db : Barcodes)
    (h : fromLines lines k = .ok db) (w : List Dna) (v : BcId)
    (hm : (w, v) ∈ db.barcodes) (c : Counts) :
    ∃ id, lookupBc db.barcodes w = some id ∧
      lookupBc db.barcodes (revcomp w) = some id ∧
      processRecord db c (revcomp w) = processRecord db c w := by
  obtain ⟨hk, ws, hws, hbar⟩ := fromGo_entries k lines [] 0 0 db h
  rw [List.nil_append] at hbar
  -- the window length and positivity of k
  have hwlen : w.length = k ∧ 0 < k := by
    rw [hbar] at hm
    obtain ⟨p, hp, hor⟩ := blockList_mem ws 0 w v hm
    obtain ⟨line, -, hline⟩ := mapM_mem _ _ _ hws p hp
    have := lineData_length k line p.1 p.2 (by rw [hline])
    rcases hor with h' | h'
    · exact ⟨h' ▸ this.1, this.2⟩
    · rw [h', revcomp_length]
      exact this
  -- lookup symmetry from the chain structure
  have hchain : IsChain db.barcodes := hbar ▸ blockList_chain ws 0
  have hsymm : lookupBc db.barcodes (revcomp w) = lookupBc db.barcodes w :=
    chain_find_symm (chain_reverse hchain) w
  -- the lookup of w hits
  have hsome : (db.barcodes.reverse.find? (fun e => decide (e.1 = w))).isSome = true :=
    List.find?_isSome.mpr ⟨(w, v), List.mem_reverse.mpr hm, by simp⟩
  cases hfind : db.barcodes.reverse.find? (fun e => decide (e.1 = w)) with
  | none => rw [hfind] at hsome; exact absurd hsome (by simp)
  | some e =>
      refine ⟨e.2, by rw [lookupBc, hfind]; rfl, by rw [hsymm, lookupBc, hfind]; rfl, ?_⟩
      -- both records consist of a single window
      have hw1 : windows db.k w = [w] := by
        rw [hk]
        exact windows_exact k w hwlen.2 hwlen.1
      have hw2 : windows db.k (revcomp w) = [revcomp w] := by
        rw [hk]
        exact windows_exact k (revcomp w) hwlen.2 (by rw [revcomp_length, hwlen.1])
      rw [processRecord, processRecord, hw1, hw2, List.foldl_cons, List.foldl_cons,
        List.foldl_nil, List.foldl_nil]
      have hlw : lookupBc db.barcodes w = some e.2 := by rw [lookupBc, hfind]; rfl
      rw [hsymm, hlw]

/-- C5 witnessed on `db0`: the forward window `w0` and its reverse
complement hit the same id. -/
theorem revcomp_lookup_symmetry_witness :
    ∃ id, lookupBc db0.barcodes w0 = some id ∧
      lookupBc db0.barcodes (revcomp w0) = some id ∧
      processRecord db0 [] (revcomp w0) = processRecord db0 [] w0 :=
  revcomp_lookup_symmetry L0 11 db0 (by decide) w0 ("L", 0) (by decide) []

end Fastlin
